import Mathlib

/-!
Shallow embedding of the probe pipeline of `script_exporter`
(`cmd/script_exporter`): the metric line transformer, the per-script
instrumentation wrapper, the authentication gate (Basic and JWT bearer),
token issuance, and the probe handler orchestration. Definitions follow the
Go source line by line; machine-level collaborators (Go `regexp`,
`encoding/base64`, `crypto/sha256`, `net/http` Basic-auth parsing) are
modelled at the byte/character level with their behaviour documented at each
definition.
-/

set_option maxHeartbeats 2000000
set_option maxRecDepth 8192

namespace ScriptExporter

/-! ### Characters and elementary string operations -/

/-- Go regexp `\w` (no Unicode classes are enabled): `[0-9A-Za-z_]`. -/
def wordChar (c : Char) : Bool := c.isAlpha || c.isDigit || c = '_'

/-- Go regexp `\s`: `[\t\n\f\r ]`. -/
def wsChar (c : Char) : Bool :=
  c = ' ' || c = '\t' || c = '\n' || c = '\x0c' || c = '\r'

/-- Go `strings.Trim(s, " ")`: remove leading and trailing space characters
(only `' '`, no other whitespace). -/
def trimSpacesL (l : List Char) : List Char :=
  ((l.dropWhile (· = ' ')).reverse.dropWhile (· = ' ')).reverse

/-- `strings.Trim(s, " ")` on strings. -/
def trimSpaces (s : String) : String := ⟨trimSpacesL s.data⟩

/-- Go `strings.Split(s, sep)` for a one-character separator (the only form
the source uses: `" "`, `","`, `"."`); `Split("", sep) = [""]`. -/
def splitCh (sep : Char) : List Char → List (List Char)
  | [] => [[]]
  | c :: rest =>
    if c = sep then [] :: splitCh sep rest
    else
      match splitCh sep rest with
      | [] => [[c]]
      | h :: t => (c :: h) :: t

/-- `strings.Split` on strings, one-character separator. -/
def goSplit (sep : Char) (s : String) : List String :=
  (splitCh sep s.data).map (fun l => ⟨l⟩)

/-- Go `strings.Replace(s, ",", ".", -1)`. -/
def commasToDots (s : String) : String :=
  ⟨s.data.map (fun c => if c = ',' then '.' else c)⟩

/-- First character of a string, if any. Models Go's `metric[0:1] == "#"`
byte test: for a line whose first character is multi-byte the Go comparison
is also false, so the character-level test agrees with the byte-level one. -/
def firstChar (s : String) : Option Char := s.data.head?

/-- `url.Values.Get`: first value listed for the key, `""` when absent. -/
def queryGet (q : List (String × String)) (k : String) : String :=
  match q.find? (fun p => p.1 = k) with
  | some p => p.2
  | none => ""

/-! ### The two probe-output regular expressions

`metricsHandler` compiles `regex1 = "^" + prefix + "\w*\x7b.*\x7d\s+"` and
`regex2 = regex1 source + "[0-9|\.]*"`, discarding compile errors. The
model below reproduces Go `regexp` (leftmost-first, greedy) matching of
these two concrete patterns for a prefix that the pattern treats as a
literal (every prefix made of `\w` characters, in particular the empty
prefix and every `<param>_` prefix the handler builds from an alphanumeric
query parameter). Inputs are single scanner lines, so they contain no
newline and `.` ranges over every character present. -/

/-- Backtracking choice for the pattern tail `\x7b` already consumed:
`.*\x7d\s+` against `l`. Greedy `.*` commits to the *last* position where a
`\x7d` is followed by at least one whitespace character, and the trailing
`\s+` then takes the maximal whitespace run. Returns the consumed part
(everything up to and including that run) and the remainder.
`lastBraceHere` is the candidate at the current position: it succeeds when
the current character is `\x7d` and at least one whitespace character
follows; `lastBraceWs` prefers a match further right when one exists. -/
def lastBraceHere (c : Char) (rest : List Char) : Option (List Char × List Char) :=
  match rest with
  | [] => none
  | r :: _ =>
    if c = '}' && wsChar r then
      some (c :: rest.takeWhile wsChar, rest.dropWhile wsChar)
    else none

def lastBraceWs : List Char → Option (List Char × List Char)
  | [] => none
  | c :: rest =>
    ((lastBraceWs rest).map (fun p => (c :: p.1, p.2))).or (lastBraceHere c rest)

/-- Strip a literal character-sequence from the front. -/
def stripLit : List Char → List Char → Option (List Char)
  | [], s => some s
  | _ :: _, [] => none
  | p :: ps, c :: cs => if p = c then stripLit ps cs else none

/-- `regex1.FindAllString(s, -1)` for `regex1 = "^"+pfx+"\w*\x7b.*\x7d\s+"`:
being anchored, the pattern matches at most once, so the call yields one
match exactly when a match at position 0 exists. Returns the match together
with the remainder of `s` (the handler's `metric[len(metrics[0]):]`; the
match is a byte *and* character prefix, so byte slicing equals character
slicing here). `\w*` is greedy, and since `\x7b` is not a `\w` character no
shorter run can succeed, so the brace must follow the maximal word run.
`regex1Step` handles the part of the pattern after the literal prefix. -/
def regex1Step (pfx : String) (rest0 : List Char) : Option (String × String) :=
  match rest0.dropWhile wordChar with
  | '{' :: rest1 =>
    (lastBraceWs rest1).map
      (fun mr => (⟨pfx.data ++ rest0.takeWhile wordChar ++ '{' :: mr.1⟩, ⟨mr.2⟩))
  | _ => none

def regex1Find (pfx : String) (s : String) : Option (String × String) :=
  (stripLit pfx.data s.data).bind (regex1Step pfx)

/-- `regex2.MatchString(s)` for
`regex2 = "^"+pfx+"\w*\x7b.*\x7d\s+[0-9|\.]*"`. `MatchString` asks for the
existence of a match; because the trailing class is starred (`*`, not `+`)
it accepts the empty string, and the pattern has no `$` anchor, so a match
of `regex2` exists exactly when a match of `regex1` exists. -/
def regex2MatchString (pfx : String) (s : String) : Bool :=
  (regex1Find pfx s).isSome

/-- Paren-balance scan used by `pfxCompiles`. -/
def balParen : List Char → Nat → Bool
  | [], d => d == 0
  | c :: rest, d =>
    if c = '(' then balParen rest (d + 1)
    else if c = ')' then decide (0 < d) && balParen rest (d - 1)
    else balParen rest d

/-- Whether Go `regexp.Compile` accepts `"^" ++ p ++ "\w*\x7b.*\x7d\s+"`
(and the `regex2` variant, which succeeds and fails together with it).
Modelled: the user-supplied prefix is spliced into the pattern verbatim, so
compilation fails exactly when the prefix injects broken syntax; for the
prefixes this development exercises that is an unbalanced group
parenthesis, an unclosed character class, or a stray backslash. Word-only
prefixes compile; `"("` does not. -/
def pfxCompiles (p : String) : Bool :=
  balParen p.data 0 && !(p.data.contains '[') && !(p.data.contains '\\')

/-! ### The metric line transformer (`metricsHandler`, format-output loop) -/

/-- One iteration of the `scanner.Scan()` loop of `metricsHandler`.
`some none`: the line produces no output (blank line, or a candidate sample
the first pattern rejects). `some (some e)`: the line `e ++ "\n"` is
appended to `formatedOutput`. `none`: the compiled patterns are `nil`
because the prefix did not compile, and calling `FindAllString` on the
`nil` regexp panics (the compile errors at lines 223-224 are discarded).
`emitSample` is the body run when `regex1` produced its single match `sr`:
normalize decimal commas in the remainder to dots, re-check with `regex2`,
and emit `match ++ value` on success. -/
def emitSample (pfx : String) (sr : String × String) : Option String :=
  if regex2MatchString pfx (sr.1 ++ commasToDots sr.2) then
    some (sr.1 ++ commasToDots sr.2)
  else none

def processLine (pfx : String) (line0 : String) : Option (Option String) :=
  let metric := trimSpaces line0
  if metric = "" then some none
  else if firstChar metric = some '#' then some (some metric)
  else if !(pfxCompiles pfx) then none
  else some ((regex1Find pfx (pfx ++ metric)).bind (emitSample pfx))

/-- `dropCR` of `bufio.ScanLines`: a single trailing `'\r'` is removed. -/
def dropCR (l : List Char) : List Char :=
  match l.getLast? with
  | some '\r' => l.dropLast
  | _ => l

/-- The lines a `bufio.Scanner` with `ScanLines` yields: split on `'\n'`,
no final empty token for a trailing newline, no line for empty input, and a
trailing `'\r'` stripped from each line. -/
def goLines (s : String) : List String :=
  if s = "" then []
  else
    let ps := splitCh '\n' s.data
    let ps := if ps.getLast? = some [] then ps.dropLast else ps
    ps.map (fun l => (⟨dropCR l⟩ : String))

/-- The format-output loop over a list of scanner lines, accumulating
`formatedOutput`; `none` when some processed line panics. -/
def formatLines (pfx : String) : List String → Option String
  | [] => some ""
  | l :: rest =>
    (processLine pfx l).bind (fun e =>
      (formatLines pfx rest).map (fun tail => ((e.map (· ++ "\n")).getD "") ++ tail))

/-- The whole transformer: `formatedOutput` computed from the captured
script output, or `none` when the loop panics. -/
def formatOutput (pfx : String) (out : String) : Option String :=
  formatLines pfx (goLines out)

/-! ### Transformer lemmas -/

/-- Characters a numeric-literal value may consist of (digits, decimal dot,
decimal comma before normalization). -/
def numChar (c : Char) : Bool := c.isDigit || c = '.' || c = ','

theorem stripLit_append (p l : List Char) : stripLit p (p ++ l) = some l := by
  induction p with
  | nil => rfl
  | cons c cs ih => simp [stripLit, ih]

theorem takeWhile_append_all {p : Char → Bool} {xs : List Char} (y : Char)
    (ys : List Char) (hxs : ∀ x ∈ xs, p x) (hy : ¬ p y) :
    (xs ++ y :: ys).takeWhile p = xs := by
  induction xs with
  | nil => simp [List.takeWhile_cons, hy]
  | cons c cs ih =>
    have hc : p c := hxs c (by simp)
    simp only [List.cons_append, List.takeWhile_cons, hc, if_true]
    rw [ih (fun x hx => hxs x (by simp [hx]))]

theorem dropWhile_append_all {p : Char → Bool} {xs : List Char} (y : Char)
    (ys : List Char) (hxs : ∀ x ∈ xs, p x) (hy : ¬ p y) :
    (xs ++ y :: ys).dropWhile p = y :: ys := by
  induction xs with
  | nil => simp [List.dropWhile_cons, hy]
  | cons c cs ih =>
    have hc : p c := hxs c (by simp)
    simp only [List.cons_append, List.dropWhile_cons, hc, if_true]
    exact ih (fun x hx => hxs x (by simp [hx]))

theorem trimSpacesL_eq_self (l : List Char) (h1 : l.head? ≠ some ' ')
    (h2 : l.getLast? ≠ some ' ') : trimSpacesL l = l := by
  have d1 : l.dropWhile (· = ' ') = l := by
    cases l with
    | nil => rfl
    | cons c cs =>
      have : ¬ (c = ' ') := by simpa using h1
      simp [List.dropWhile_cons, this]
  have d2 : l.reverse.dropWhile (· = ' ') = l.reverse := by
    cases hr : l.reverse with
    | nil => rfl
    | cons c cs =>
      have hc : l.getLast? = some c := by
        rw [← List.head?_reverse, hr]; rfl
      have : ¬ (c = ' ') := fun hce => h2 (hce ▸ hc)
      simp [List.dropWhile_cons, this]
  unfold trimSpacesL
  rw [d1, d2, List.reverse_reverse]

theorem lastBraceWs_none {l : List Char} (h : ∀ c ∈ l, c ≠ '}') :
    lastBraceWs l = none := by
  induction l with
  | nil => rfl
  | cons c rest ih =>
    have hrest := ih (fun x hx => h x (by simp [hx]))
    have hc : c ≠ '}' := h c (by simp)
    simp only [lastBraceWs, hrest, Option.map_none', Option.none_or]
    cases rest with
    | nil => rfl
    | cons r rs => simp [lastBraceHere, hc]

theorem lastBraceWs_append {tail : List Char} (pre : List Char)
    {mid rem : List Char} (h : lastBraceWs tail = some (mid, rem)) :
    lastBraceWs (pre ++ tail) = some (pre ++ mid, rem) := by
  induction pre with
  | nil => simpa using h
  | cons c cs ih =>
    simp only [List.cons_append, lastBraceWs, List.append_eq, ih, Option.map_some']
    rfl

theorem balParen_no_paren {l : List Char} (h : ∀ c ∈ l, c ≠ '(' ∧ c ≠ ')') :
    ∀ d, balParen l d = (d == 0) := by
  induction l with
  | nil => intro d; rfl
  | cons c rest ih =>
    intro d
    have hc := h c (by simp)
    unfold balParen
    simp only [hc.1, if_false, hc.2]
    exact ih (fun x hx => h x (by simp [hx])) d

theorem pfxCompiles_of_word {p : String} (h : ∀ c ∈ p.data, wordChar c) :
    pfxCompiles p = true := by
  have h1 : ∀ c ∈ p.data, c ≠ '(' ∧ c ≠ ')' := by
    intro c hc
    have := h c hc
    constructor <;> (rintro rfl; simp [wordChar, Char.isAlpha, Char.isUpper,
      Char.isLower, Char.isDigit] at this)
  have h2 : ('[' : Char) ∉ p.data := by
    intro hm
    have := h _ hm
    simp [wordChar, Char.isAlpha, Char.isUpper, Char.isLower, Char.isDigit] at this
  have h3 : ('\\' : Char) ∉ p.data := by
    intro hm
    have := h _ hm
    simp [wordChar, Char.isAlpha, Char.isUpper, Char.isLower, Char.isDigit] at this
  unfold pfxCompiles
  rw [balParen_no_paren h1 0]
  simp [h2, h3]

theorem wordChar_ne {c : Char} (h : wordChar c) :
    c ≠ ' ' ∧ c ≠ '#' ∧ c ≠ '{' ∧ c ≠ '}' := by
  refine ⟨?_, ?_, ?_, ?_⟩ <;> (rintro rfl; exact absurd h (by decide))

theorem numChar_ne {c : Char} (h : numChar c) : ¬ wsChar c ∧ c ≠ '}' := by
  constructor
  · intro hw
    simp only [wsChar, Bool.or_eq_true, decide_eq_true_eq] at hw
    rcases hw with ((((h1 | h1) | h1) | h1) | h1) <;>
      (subst h1; exact absurd h (by decide))
  · rintro rfl; exact absurd h (by decide)

theorem takeWhile_nil_of_head {p : Char → Bool} {val : List Char}
    (h : ∀ c ∈ val, ¬ p c) : val.takeWhile p = [] := by
  cases val with
  | nil => rfl
  | cons c cs => simp [List.takeWhile_cons, h c (by simp)]

theorem dropWhile_self_of_head {p : Char → Bool} {val : List Char}
    (h : ∀ c ∈ val, ¬ p c) : val.dropWhile p = val := by
  cases val with
  | nil => rfl
  | cons c cs => simp [List.dropWhile_cons, h c (by simp)]

theorem lastBraceWs_tail {val : List Char}
    (hval : ∀ c ∈ val, ¬ wsChar c ∧ c ≠ '}') :
    lastBraceWs ('}' :: ' ' :: val) = some (['}', ' '], val) := by
  have hnone : lastBraceWs (' ' :: val) = none := by
    apply lastBraceWs_none
    intro c hc
    rcases List.mem_cons.mp hc with h1 | h1
    · subst h1; decide
    · exact (hval c h1).2
  have htake : (' ' :: val).takeWhile wsChar = [' '] := by
    simp only [List.takeWhile_cons]
    rw [if_pos (by decide)]
    rw [takeWhile_nil_of_head (fun c hc => (hval c hc).1)]
  have hdrop : (' ' :: val).dropWhile wsChar = val := by
    simp only [List.dropWhile_cons]
    rw [if_pos (by decide)]
    exact dropWhile_self_of_head (fun c hc => (hval c hc).1)
  rw [show lastBraceWs ('}' :: ' ' :: val) =
      ((lastBraceWs (' ' :: val)).map (fun p => ('}' :: p.1, p.2))).or
        (lastBraceHere '}' (' ' :: val)) from rfl,
    hnone]
  simp only [Option.map_none', Option.none_or, lastBraceHere]
  rw [if_pos (by decide), htake, hdrop]

/-- Where `regex1` matches on a well-formed sample shape: the name run is
all word characters, the label block is arbitrary line content, and the
value after the single separating space contains neither whitespace nor a
closing brace. The match consumes everything up to and including the space
and leaves the value as remainder. -/
theorem regex1Find_shape (p name : String) (lbl val : List Char)
    (hname : ∀ c ∈ name.data, wordChar c)
    (hval : ∀ c ∈ val, ¬ wsChar c ∧ c ≠ '}') :
    regex1Find p ⟨p.data ++ (name.data ++ '{' :: (lbl ++ '}' :: ' ' :: val))⟩ =
      some (⟨p.data ++ (name.data ++ '{' :: (lbl ++ ['}', ' ']))⟩, ⟨val⟩) := by
  have hstrip : stripLit p.data
      (String.mk (p.data ++ (name.data ++ '{' :: (lbl ++ '}' :: ' ' :: val)))).data =
      some (name.data ++ '{' :: (lbl ++ '}' :: ' ' :: val)) := stripLit_append _ _
  have hdrop : (name.data ++ '{' :: (lbl ++ '}' :: ' ' :: val)).dropWhile wordChar =
      '{' :: (lbl ++ '}' :: ' ' :: val) := dropWhile_append_all _ _ hname (by decide)
  have hlast : lastBraceWs (lbl ++ '}' :: ' ' :: val) =
      some (lbl ++ ['}', ' '], val) := lastBraceWs_append lbl (lastBraceWs_tail hval)
  have htake : (name.data ++ '{' :: (lbl ++ '}' :: ' ' :: val)).takeWhile wordChar =
      name.data := takeWhile_append_all _ _ hname (by decide)
  simp only [regex1Find, hstrip, Option.some_bind, regex1Step, hdrop, hlast, htake,
    Option.map_some']
  simp [List.append_assoc]

theorem numChar_ne_space {c : Char} (h : numChar c) : c ≠ ' ' := by
  rintro rfl; exact absurd h (by decide)

theorem commasToDots_numChar {num : String} (h : ∀ c ∈ num.data, numChar c) :
    ∀ c ∈ (commasToDots num).data, numChar c := by
  intro c hc
  simp only [commasToDots] at hc
  obtain ⟨x, hx, hfx⟩ := List.mem_map.mp hc
  subst hfx
  by_cases hx' : x = ','
  · subst hx'; decide
  · simpa [hx'] using h x hx

theorem data_lbrace : ("\x7b" : String).data = ['{'] := rfl

theorem data_rbraceSp : ("\x7d " : String).data = ['}', ' '] := rfl

/-- The transformer's action on a well-formed sample line
`name\x7blbl\x7d num` under a word-character prefix `p`: the line is kept,
the prefix is prepended to the name, the label block and separating space
are unchanged, and every comma in the value is replaced by a dot. -/
theorem processLine_wellFormed (p name lbl num : String)
    (hp : ∀ c ∈ p.data, wordChar c)
    (hname : ∀ c ∈ name.data, wordChar c)
    (hnum : ∀ c ∈ num.data, numChar c)
    (hnum0 : num.data ≠ []) :
    processLine p (name ++ "\x7b" ++ lbl ++ "\x7d " ++ num) =
      some (some (p ++ name ++ "\x7b" ++ lbl ++ "\x7d " ++ commasToDots num)) := by
  have hLdata : (name ++ "\x7b" ++ lbl ++ "\x7d " ++ num).data =
      name.data ++ '{' :: (lbl.data ++ '}' :: ' ' :: num.data) := by
    simp [String.data_append, data_lbrace, data_rbraceSp]
  set L := name ++ "\x7b" ++ lbl ++ "\x7d " ++ num with hL
  have hhead : L.data.head? ≠ some ' ' ∧ L.data.head? ≠ some '#' := by
    rw [hLdata]
    cases hn : name.data with
    | nil => simp
    | cons c cs =>
      have hw := wordChar_ne (hname c (by rw [hn]; simp))
      simp [hw.1, hw.2.1]
  have hlast' : L.data.getLast? ≠ some ' ' := by
    rw [hLdata, show name.data ++ '{' :: (lbl.data ++ '}' :: ' ' :: num.data) =
      (name.data ++ '{' :: lbl.data ++ ['}', ' ']) ++ num.data by simp,
      List.getLast?_append_of_ne_nil _ hnum0]
    intro hsp
    exact absurd (hnum _ (List.mem_of_mem_getLast? hsp)) (by decide)
  have htrim : trimSpaces L = L :=
    String.ext (trimSpacesL_eq_self L.data hhead.1 hlast')
  have hne : L ≠ "" := by
    intro h
    have : L.data = [] := by rw [h]
    rw [hLdata] at this
    simp at this
  have hfc : firstChar L ≠ some '#' := hhead.2
  have hcompile : pfxCompiles p = true := pfxCompiles_of_word hp
  have hpl : p ++ L = ⟨p.data ++ (name.data ++ '{' :: (lbl.data ++ '}' :: ' ' :: num.data))⟩ := by
    apply String.ext
    simp [String.data_append, hLdata]
  have hfind := regex1Find_shape p name lbl.data num.data hname
    (fun c hc => numChar_ne (hnum c hc))
  have hsegval : (⟨p.data ++ (name.data ++ '{' :: (lbl.data ++ ['}', ' ']))⟩ : String) ++
      commasToDots (⟨num.data⟩ : String) =
      ⟨p.data ++ (name.data ++ '{' :: (lbl.data ++ '}' :: ' ' ::
        (commasToDots num).data))⟩ := by
    apply String.ext
    simp [String.data_append, commasToDots]
  have hval2 : ∀ c ∈ (commasToDots num).data, ¬ wsChar c ∧ c ≠ '}' :=
    fun c hc => numChar_ne (commasToDots_numChar hnum c hc)
  have hvalfind := regex1Find_shape p name lbl.data (commasToDots num).data hname hval2
  have hmatch2 : regex2MatchString p
      ((⟨p.data ++ (name.data ++ '{' :: (lbl.data ++ ['}', ' ']))⟩ : String) ++
        commasToDots (⟨num.data⟩ : String)) = true := by
    rw [hsegval]
    simp [regex2MatchString, hvalfind]
  simp only [processLine, htrim]
  rw [if_neg hne, if_neg hfc]
  simp only [hcompile, Bool.not_true, Bool.false_eq_true, if_false, hpl, hfind,
    Option.some_bind, emitSample, hmatch2, if_true]
  apply congrArg
  apply congrArg
  apply String.ext
  simp [String.data_append, data_lbrace, data_rbraceSp, commasToDots]

/-! ### Requests, responses, configuration -/

/-- The parts of an `http.Request` the probe pipeline reads: the parsed
query parameters (`r.URL.Query()`, first value per key) and the
`Authorization` header (`r.Header.Get`, `""` when absent). -/
structure Request where
  query : List (String × String)
  authorization : String
  deriving DecidableEq

/-- The observable response: status code and body. (`http.Error` also sets
`Content-Type` and the `auth` middleware sets `WWW-Authenticate` whenever
Basic auth is active, on allowed and denied requests alike; headers are not
part of the claims and are not modelled.) -/
structure HResponse where
  status : Nat
  body : String
  deriving DecidableEq

/-- The parts of `exporterConfig` the pipeline reads. -/
structure Config where
  scripts : List (String × String)
  basicActive : Bool
  username : String
  password : String
  bearerActive : Bool
  signingKey : String
  deriving DecidableEq

/-- `exporterConfig.GetScript`: the configured command line for a script
name, `""` when the name is not configured. -/
def getScript (cfg : Config) (name : String) : String :=
  queryGet cfg.scripts name

/-! ### Per-script instrumentation (`instrumentScript`) -/

/-- The observable operations on the per-script Prometheus metrics, plus a
marker for the inner handler call. -/
inductive MetricEvent
  | gaugeInc (script : String)
  | gaugeDec (script : String)
  | durationObserve (script : String)
  | counterInc (script : String)
  | innerHandler
  deriving DecidableEq

/-- `instrumentScript` as the sequence of metric operations one request
produces. An empty `script` query parameter falls through uninstrumented.
Otherwise the gauge is incremented, the inner handler runs, and the
deferred `g.With(labels).Dec()` runs on every exit path; when the inner
handler panics (`innerPanics`), the statements placed after the call — the
duration observation and the counter increment — are skipped while the
deferred decrement still executes before the panic propagates. -/
def instrumentScript (r : Request) (innerPanics : Bool) : List MetricEvent :=
  if queryGet r.query "script" = "" then [.innerHandler]
  else if innerPanics then
    [.gaugeInc (queryGet r.query "script"), .innerHandler,
     .gaugeDec (queryGet r.query "script")]
  else
    [.gaugeInc (queryGet r.query "script"), .innerHandler,
     .durationObserve (queryGet r.query "script"),
     .counterInc (queryGet r.query "script"),
     .gaugeDec (queryGet r.query "script")]

/-- The per-script metric families: gauge value, counter value and number
of duration observations, per script label. -/
structure MetricsState where
  gauge : String → Int
  counter : String → Int
  durationCount : String → Nat

def applyEvent (st : MetricsState) : MetricEvent → MetricsState
  | .gaugeInc s =>
    { st with gauge := fun x => if x = s then st.gauge x + 1 else st.gauge x }
  | .gaugeDec s =>
    { st with gauge := fun x => if x = s then st.gauge x - 1 else st.gauge x }
  | .durationObserve s =>
    { st with durationCount :=
        fun x => if x = s then st.durationCount x + 1 else st.durationCount x }
  | .counterInc s =>
    { st with counter := fun x => if x = s then st.counter x + 1 else st.counter x }
  | .innerHandler => st

def applyEvents (st : MetricsState) (evs : List MetricEvent) : MetricsState :=
  evs.foldl applyEvent st

/-! ### The probe handler (`metricsHandler`) -/

def scriptNameOf (r : Request) : String := queryGet r.query "script"

/-- The transformer prefix: the `prefix` query parameter with `"_"`
appended when non-empty. -/
def pfxOf (r : Request) : String :=
  if queryGet r.query "prefix" ≠ "" then queryGet r.query "prefix" ++ "_"
  else queryGet r.query "prefix"

/-- The extra process arguments: the comma-separated names listed in the
`params` query parameter, each replaced by its own query value. -/
def paramValuesOf (r : Request) : List String :=
  if queryGet r.query "params" ≠ "" then
    (goSplit ',' (queryGet r.query "params")).map (queryGet r.query)
  else []

/-- The command line handed to `runScript`: the configured script split on
spaces, plus the parameter values. -/
def argsOf (cfg : Config) (r : Request) : List String :=
  goSplit ' ' (getScript cfg (scriptNameOf r)) ++ paramValuesOf r

def digitChar (n : Nat) : Char := Char.ofNat (48 + n % 10)

/-- Decimal digits, most significant first (structural fuel recursion so
the kernel can evaluate it; fuel `n` suffices since `n / 10 < n`). -/
def decDigitsFuel : Nat → Nat → List Char
  | _, 0 => []
  | 0, _ + 1 => []
  | fuel + 1, n + 1 =>
    decDigitsFuel fuel ((n + 1) / 10) ++ [digitChar ((n + 1) % 10)]

/-- Decimal digits of `n` (empty for 0), most significant first. -/
def decDigits (n : Nat) : List Char := decDigitsFuel n n

/-- `fmt` `%d` for a natural number. -/
def natToDec (n : Nat) : String := if n = 0 then "0" else ⟨decDigits n⟩

def pad6 (l : List Char) : List Char := List.replicate (6 - l.length) '0' ++ l

/-- `fmt` `%f` for the non-negative float `ip + fp / 1000000`: the default
`%f` prints six fractional digits. The elapsed seconds measured by the
handler enter the model through this pair. -/
def fmtFloat6 (ip fp : Nat) : String :=
  natToDec ip ++ "." ++ ⟨pad6 (decDigits (fp % 1000000))⟩

def scriptSuccessHelp : String :=
  "# HELP script_success Script exit status (0 = error, 1 = success)."

def scriptSuccessType : String := "# TYPE script_success gauge"

def scriptDurationSecondsHelp : String :=
  "# HELP script_duration_seconds Script execution time, in seconds."

def scriptDurationSecondsType : String := "# TYPE script_duration_seconds gauge"

/-- The body written by the handler's
`fmt.Fprintf(w, "%s\n%s\n%s_success\x7b\x7d %d\n%s\n%s\n%s_duration_seconds\x7b\x7d %f\n", ...)`
with success flag `succ` and `%f`-formatted elapsed seconds `ip`/`fp`
(the `namespace` constant is `"script"`). -/
def synthBody (succ ip fp : Nat) : String :=
  scriptSuccessHelp ++ "\n" ++ scriptSuccessType ++ "\n" ++
  "script_success\x7b\x7d " ++ natToDec succ ++ "\n" ++
  scriptDurationSecondsHelp ++ "\n" ++ scriptDurationSecondsType ++ "\n" ++
  "script_duration_seconds\x7b\x7d " ++ fmtFloat6 ip fp ++ "\n"

/-- `metricsHandler`, parameterized by the process-invocation outcome `run`
(the `runScript` collaborator: captured standard output, or an execution
failure — `runScript` returns `("", err)` on failure, so no truncated output
exists) and by the `%f` rendering `ip`/`fp` of
`time.Since(scriptStartTime).Seconds()`. Returns the response paired with
the command lines invoked, or `none` when the format-output loop panics. -/
def metricsHandler (cfg : Config) (run : List String → Except Unit String)
    (ip fp : Nat) (r : Request) : Option (HResponse × List (List String)) :=
  if scriptNameOf r = "" then some (⟨400, "Script parameter is missing\n"⟩, [])
  else if getScript cfg (scriptNameOf r) = "" then
    some (⟨400, "Script not found\n"⟩, [])
  else
    match run (argsOf cfg r) with
    | .error _ => some (⟨200, synthBody 0 ip fp⟩, [argsOf cfg r])
    | .ok output =>
      if queryGet r.query "output" = "ignore" then
        some (⟨200, synthBody 1 ip fp⟩, [argsOf cfg r])
      else
        (formatOutput (pfxOf r) output).map
          (fun fo => (⟨200, synthBody 1 ip fp ++ fo ++ "\n"⟩, [argsOf cfg r]))

/-! ### Supporting lemmas for the handler claims -/

theorem processLine_ne_none {p : String} (hp : ∀ c ∈ p.data, wordChar c)
    (l : String) : processLine p l ≠ none := by
  unfold processLine
  simp only [pfxCompiles_of_word hp, Bool.not_true, Bool.false_eq_true, if_false]
  split_ifs <;> simp

theorem formatLines_isSome {p : String} (hp : ∀ c ∈ p.data, wordChar c)
    (ls : List String) : (formatLines p ls).isSome = true := by
  induction ls with
  | nil => rfl
  | cons l rest ih =>
    simp only [formatLines]
    cases hpl : processLine p l with
    | none => exact absurd hpl (processLine_ne_none hp l)
    | some e =>
      simp only [Option.some_bind]
      cases hfr : formatLines p rest with
      | none => rw [hfr] at ih; simp at ih
      | some tail => simp

theorem digitChar_isDigit (n : Nat) : (digitChar n).isDigit = true := by
  unfold digitChar
  have h : n % 10 < 10 := Nat.mod_lt _ (by decide)
  set m := n % 10 with hm
  interval_cases m <;> decide

theorem decDigitsFuel_digits :
    (fuel n : Nat) → ∀ c ∈ decDigitsFuel fuel n, c.isDigit = true
  | _, 0 => by intro c hc; simp [decDigitsFuel] at hc
  | 0, n + 1 => by intro c hc; simp [decDigitsFuel] at hc
  | fuel + 1, n + 1 => by
    intro c hc
    simp only [decDigitsFuel] at hc
    rcases List.mem_append.mp hc with h1 | h1
    · exact decDigitsFuel_digits fuel ((n + 1) / 10) c h1
    · simp only [List.mem_singleton] at h1
      subst h1
      exact digitChar_isDigit _

theorem decDigits_digits (n : Nat) : ∀ c ∈ decDigits n, c.isDigit = true :=
  decDigitsFuel_digits n n

theorem fmtFloat6_wf (ip fp : Nat) :
    (fmtFloat6 ip fp).data.all (fun c => c.isDigit || c = '.') = true := by
  rw [List.all_eq_true]
  intro c hc
  unfold fmtFloat6 at hc
  rw [String.data_append, String.data_append] at hc
  rcases List.mem_append.mp hc with hc1 | hc2
  · rcases List.mem_append.mp hc1 with hca | hcb
    · unfold natToDec at hca
      split_ifs at hca
      · rw [show ("0" : String).data = ['0'] from rfl] at hca
        simp only [List.mem_singleton] at hca
        subst hca; decide
      · have := decDigits_digits ip c hca
        simp [this]
    · rw [show ("." : String).data = ['.'] from rfl] at hcb
      simp only [List.mem_singleton] at hcb
      subst hcb; decide
  · rw [show (String.mk (pad6 (decDigits (fp % 1000000)))).data =
        pad6 (decDigits (fp % 1000000)) from rfl] at hc2
    unfold pad6 at hc2
    rcases List.mem_append.mp hc2 with h1 | h1
    · have := List.eq_of_mem_replicate h1
      subst this; decide
    · have := decDigits_digits (fp % 1000000) c h1
      simp [this]

/-! ### Claim theorems: transformer and handler -/

/-- C1: the claim asserts that a candidate sample line whose segment
matches the extraction grammar but whose value is not numeric is dropped,
strictly shrinking the line count. The re-validation cannot reject (see
`regex2MatchString`): the line `name\x7b\x7d abc`, value `abc`, is emitted
verbatim, and the output has exactly as many lines as the input. -/
theorem C1_nonNumericValueEmitted :
    formatOutput "" "name\x7b\x7d abc" = some "name\x7b\x7d abc\n" ∧
    (goLines "name\x7b\x7d abc\n").length = (goLines "name\x7b\x7d abc").length := by
  decide

/-- C2 (counterexample): the claim quantifies over every prefix; with the
prefix `"("` the patterns do not compile, the `nil` regexp is dereferenced,
and the transformer panics instead of emitting the prefixed line. -/
theorem C2_counterexample_panicPrefix :
    processLine "(" "name\x7bl=\"v\"\x7d 123.45" = none ∧
    processLine "(" "name\x7bl=\"v\"\x7d 123.45" ≠
      some (some ("(" ++ "name\x7bl=\"v\"\x7d 123.45")) := by decide

/-- C2 (amended): for every prefix the compiled pattern treats as a literal
— every prefix made of word characters, which covers the empty prefix and
every prefix the handler builds from an alphanumeric `prefix` parameter —
and every well-formed input line `name\x7blbl\x7d num`, the transformer
emits exactly the prefix-prepended line, with every comma of the value
replaced by a decimal point and everything else unchanged. -/
theorem C2_prefixPrepended (p name lbl num : String)
    (hp : ∀ c ∈ p.data, wordChar c)
    (hname : ∀ c ∈ name.data, wordChar c)
    (hnum : ∀ c ∈ num.data, numChar c)
    (hnum0 : num.data ≠ []) :
    processLine p (name ++ "\x7b" ++ lbl ++ "\x7d " ++ num) =
      some (some (p ++ name ++ "\x7b" ++ lbl ++ "\x7d " ++ commasToDots num)) :=
  processLine_wellFormed p name lbl num hp hname hnum hnum0

/-- C2 witness: prefix `p_` on `name\x7bl="v"\x7d 12,5` emits
`p_name\x7bl="v"\x7d 12.5`. -/
theorem C2_prefixPrepended_witness :
    processLine "p_" ("name" ++ "\x7b" ++ "l=\"v\"" ++ "\x7d " ++ "12,5") =
      some (some ("p_" ++ "name" ++ "\x7b" ++ "l=\"v\"" ++ "\x7d " ++
        commasToDots "12,5")) :=
  C2_prefixPrepended "p_" "name" "l=\"v\"" "12,5"
    (by decide) (by decide) (by decide) (by decide)

/-- C3 (counterexample): a request whose `prefix` parameter is `"("` makes
both patterns fail to compile; the errors are discarded and the first
candidate sample line of the script output dereferences the `nil` regexp:
the handler panics and writes no response. -/
theorem C3_counterexample_panic :
    metricsHandler ⟨[("s", "echo")], false, "", "", false, ""⟩
      (fun _ => .ok "m\x7b\x7d 1") 0 0
      ⟨[("script", "s"), ("prefix", "(")], ""⟩ = none := by decide

/-- C3 (amended): every request whose `prefix` parameter consists of word
characters (in particular every request without a `prefix` parameter) runs
to completion and produces a response, for every configuration, invocation
outcome and script output; prefixes that break pattern compilation panic
instead (see the counterexample). -/
theorem C3_completesForWordPrefix (cfg : Config)
    (run : List String → Except Unit String) (ip fp : Nat) (r : Request)
    (hp : ∀ c ∈ (queryGet r.query "prefix").data, wordChar c) :
    (metricsHandler cfg run ip fp r).isSome = true := by
  have hpfx : ∀ c ∈ (pfxOf r).data, wordChar c := by
    unfold pfxOf
    split_ifs with h
    · intro c hc
      rw [String.data_append] at hc
      rcases List.mem_append.mp hc with h1 | h1
      · exact hp c h1
      · rw [show ("_" : String).data = ['_'] from rfl] at h1
        simp only [List.mem_singleton] at h1
        subst h1; decide
    · exact hp
  unfold metricsHandler
  by_cases h1 : scriptNameOf r = ""
  · rw [if_pos h1]; rfl
  rw [if_neg h1]
  by_cases h2 : getScript cfg (scriptNameOf r) = ""
  · rw [if_pos h2]; rfl
  rw [if_neg h2]
  split
  · rfl
  · rename_i output heq
    by_cases h3 : queryGet r.query "output" = "ignore"
    · rw [if_pos h3]; rfl
    rw [if_neg h3]
    have hiso := formatLines_isSome hpfx (goLines output)
    unfold formatOutput
    cases hfl : formatLines (pfxOf r) (goLines output) with
    | none => rw [hfl] at hiso; simp at hiso
    | some fo => rfl

/-- C3 witness for the amended theorem: a concrete request with prefix
parameter `p` completes. -/
theorem C3_completesForWordPrefix_witness :
    (metricsHandler ⟨[("s", "echo")], false, "", "", false, ""⟩
      (fun _ => .ok "m\x7b\x7d 1") 0 0
      ⟨[("script", "s"), ("prefix", "p")], ""⟩).isSome = true :=
  C3_completesForWordPrefix ⟨[("s", "echo")], false, "", "", false, ""⟩
    (fun _ => .ok "m\x7b\x7d 1") 0 0 ⟨[("script", "s"), ("prefix", "p")], ""⟩
    (by decide)

/-- C4: with a non-empty script name the in-flight gauge is incremented
exactly once (the first operation, before the inner handler) and
decremented exactly once (the last operation, when the request completes),
on the normal and the panicking exit path alike, so the gauge family is
left unchanged; with an empty script name the trace carries no metric
operation and the metrics state is untouched. -/
theorem C4_inflightGaugeBalanced (r : Request) (innerPanics : Bool)
    (st : MetricsState) :
    (scriptNameOf r ≠ "" →
      ((instrumentScript r innerPanics).count (.gaugeInc (scriptNameOf r)) = 1 ∧
       (instrumentScript r innerPanics).count (.gaugeDec (scriptNameOf r)) = 1 ∧
       (instrumentScript r innerPanics).head? =
         some (.gaugeInc (scriptNameOf r)) ∧
       (instrumentScript r innerPanics).getLast? =
         some (.gaugeDec (scriptNameOf r)) ∧
       (applyEvents st (instrumentScript r innerPanics)).gauge = st.gauge)) ∧
    (scriptNameOf r = "" →
      (instrumentScript r innerPanics = [.innerHandler] ∧
       applyEvents st (instrumentScript r innerPanics) = st)) := by
  constructor
  · intro hne
    unfold instrumentScript
    rw [if_neg (by exact hne)]
    cases innerPanics <;>
      refine ⟨by simp [List.count_cons, scriptNameOf],
              by simp [List.count_cons, scriptNameOf],
              by simp [scriptNameOf],
              by simp [scriptNameOf],
              ?_⟩ <;>
      · simp only [applyEvents, List.foldl, applyEvent]
        funext x
        by_cases hx : x = queryGet r.query "script" <;> simp [hx, scriptNameOf]
  · intro he
    unfold instrumentScript
    rw [if_pos (by exact he)]
    exact ⟨rfl, rfl⟩

/-- C4 witness: a request for script `backup` whose inner handler panics
still increments first, decrements last, and restores the gauge. -/
theorem C4_witness :
    (instrumentScript ⟨[("script", "backup")], ""⟩ true).count
      (.gaugeInc "backup") = 1 ∧
    (instrumentScript ⟨[("script", "backup")], ""⟩ true).count
      (.gaugeDec "backup") = 1 ∧
    (instrumentScript ⟨[("script", "backup")], ""⟩ true).head? =
      some (.gaugeInc "backup") ∧
    (instrumentScript ⟨[("script", "backup")], ""⟩ true).getLast? =
      some (.gaugeDec "backup") ∧
    (applyEvents ⟨fun _ => 0, fun _ => 0, fun _ => 0⟩
      (instrumentScript ⟨[("script", "backup")], ""⟩ true)).gauge =
      (⟨fun _ => 0, fun _ => 0, fun _ => 0⟩ : MetricsState).gauge :=
  (C4_inflightGaugeBalanced ⟨[("script", "backup")], ""⟩ true
    ⟨fun _ => 0, fun _ => 0, fun _ => 0⟩).1 (by decide)

/-- C7: a registered script whose invocation fails yields HTTP 200 and a
body of exactly the synthetic block carrying `script_success\x7b\x7d 0`
and a `%f`-shaped duration (digits and a dot); no script output follows
(the invoker returns no truncated output on failure), and exactly the one
invocation happened. -/
theorem C7_failureSynthesizedBody (cfg : Config)
    (run : List String → Except Unit String) (ip fp : Nat) (r : Request)
    (h1 : scriptNameOf r ≠ "") (h2 : getScript cfg (scriptNameOf r) ≠ "")
    (h3 : run (argsOf cfg r) = .error ()) :
    metricsHandler cfg run ip fp r = some (⟨200, synthBody 0 ip fp⟩, [argsOf cfg r]) ∧
    (fmtFloat6 ip fp).data.all (fun c => c.isDigit || c = '.') = true := by
  refine ⟨?_, fmtFloat6_wf ip fp⟩
  unfold metricsHandler
  rw [if_neg h1, if_neg h2, h3]

/-- C7 witness: a failing invocation of registered script `s`. -/
theorem C7_witness :
    metricsHandler ⟨[("s", "echo hi")], false, "", "", false, ""⟩
        (fun _ => .error ()) 0 120000 ⟨[("script", "s")], ""⟩ =
      some (⟨200, synthBody 0 0 120000⟩,
        [argsOf ⟨[("s", "echo hi")], false, "", "", false, ""⟩
          ⟨[("script", "s")], ""⟩]) ∧
    (fmtFloat6 0 120000).data.all (fun c => c.isDigit || c = '.') = true :=
  C7_failureSynthesizedBody ⟨[("s", "echo hi")], false, "", "", false, ""⟩
    (fun _ => .error ()) 0 120000 ⟨[("script", "s")], ""⟩
    (by decide) (by decide) rfl

/-- C8: a request naming a script absent from the registry gets HTTP 400
with body `Script not found` (plus the newline `http.Error` appends), and
no process is ever invoked. -/
theorem C8_scriptNotFound (cfg : Config)
    (run : List String → Except Unit String) (ip fp : Nat) (r : Request)
    (h1 : scriptNameOf r ≠ "") (h2 : getScript cfg (scriptNameOf r) = "") :
    metricsHandler cfg run ip fp r = some (⟨400, "Script not found\n"⟩, []) := by
  unfold metricsHandler
  rw [if_neg h1, if_pos h2]

/-- C8 witness: unregistered script name `zzz`. -/
theorem C8_witness :
    metricsHandler ⟨[("s", "echo hi")], false, "", "", false, ""⟩
        (fun _ => .ok "") 0 0 ⟨[("script", "zzz")], ""⟩ =
      some (⟨400, "Script not found\n"⟩, []) :=
  C8_scriptNotFound ⟨[("s", "echo hi")], false, "", "", false, ""⟩
    (fun _ => .ok "") 0 0 ⟨[("script", "zzz")], ""⟩ (by decide) (by decide)

/-- C10: when the `output` parameter is `ignore` and the invocation
succeeds, the body is exactly the synthetic block with
`script_success\x7b\x7d 1` — independent of whatever the script printed. -/
theorem C10_outputIgnored (cfg : Config)
    (run : List String → Except Unit String) (ip fp : Nat) (r : Request)
    (out : String)
    (h1 : scriptNameOf r ≠ "") (h2 : getScript cfg (scriptNameOf r) ≠ "")
    (h3 : run (argsOf cfg r) = .ok out)
    (h4 : queryGet r.query "output" = "ignore") :
    metricsHandler cfg run ip fp r = some (⟨200, synthBody 1 ip fp⟩, [argsOf cfg r]) := by
  unfold metricsHandler
  rw [if_neg h1, if_neg h2, h3]
  show (if queryGet r.query "output" = "ignore"
        then some ((⟨200, synthBody 1 ip fp⟩ : HResponse), [argsOf cfg r])
        else (formatOutput (pfxOf r) out).map
          (fun fo => ((⟨200, synthBody 1 ip fp ++ fo ++ "\n"⟩ : HResponse),
            [argsOf cfg r]))) =
      some ((⟨200, synthBody 1 ip fp⟩ : HResponse), [argsOf cfg r])
  rw [if_pos h4]

/-- C10 witness: `output=ignore` with a script that prints metric-looking
junk. -/
theorem C10_witness :
    metricsHandler ⟨[("s", "echo hi")], false, "", "", false, ""⟩
        (fun _ => .ok "junk\x7b\x7d x") 3 500000
        ⟨[("script", "s"), ("output", "ignore")], ""⟩ =
      some (⟨200, synthBody 1 3 500000⟩,
        [argsOf ⟨[("s", "echo hi")], false, "", "", false, ""⟩
          ⟨[("script", "s"), ("output", "ignore")], ""⟩]) :=
  C10_outputIgnored ⟨[("s", "echo hi")], false, "", "", false, ""⟩
    (fun _ => .ok "junk\x7b\x7d x") 3 500000
    ⟨[("script", "s"), ("output", "ignore")], ""⟩ "junk\x7b\x7d x"
    (by decide) (by decide) rfl (by decide)

/-! ### Base64 (Go `encoding/base64`)

Byte-level model of `StdEncoding` (used by `r.BasicAuth()`) and of the
URL-safe encoding as `jwt-go`'s `EncodeSegment`/`DecodeSegment` use it.
Bytes are `Nat` values below 256. Go's decoder skips `\r` and `\n`,
requires full 4-character groups with `=` padding only at the end, and (in
the default, non-strict mode) ignores non-zero trailing bits. -/

/-- Index in the standard alphabet `A-Z a-z 0-9 + /`. -/
def b64IndexStd (c : Char) : Option Nat :=
  if 'A' ≤ c ∧ c ≤ 'Z' then some (c.toNat - 65)
  else if 'a' ≤ c ∧ c ≤ 'z' then some (c.toNat - 97 + 26)
  else if '0' ≤ c ∧ c ≤ '9' then some (c.toNat - 48 + 52)
  else if c = '+' then some 62
  else if c = '/' then some 63
  else none

/-- Index in the URL-safe alphabet `A-Z a-z 0-9 - _`. -/
def b64IndexUrl (c : Char) : Option Nat :=
  if 'A' ≤ c ∧ c ≤ 'Z' then some (c.toNat - 65)
  else if 'a' ≤ c ∧ c ≤ 'z' then some (c.toNat - 97 + 26)
  else if '0' ≤ c ∧ c ≤ '9' then some (c.toNat - 48 + 52)
  else if c = '-' then some 62
  else if c = '_' then some 63
  else none

/-- Decode full 4-character base64 groups; `=` is accepted only as the
final one or two characters of the input. -/
def b64DecGroups (idx : Char → Option Nat) : List Char → Option (List Nat)
  | [] => some []
  | a :: b :: c :: d :: rest =>
    match idx a, idx b with
    | some w, some x =>
      if c = '=' then
        if d = '=' ∧ rest = [] then some [w * 4 + x / 16] else none
      else
        match idx c with
        | some y =>
          if d = '=' then
            if rest = [] then some [w * 4 + x / 16, x % 16 * 16 + y / 4] else none
          else
            match idx d with
            | some z =>
              (b64DecGroups idx rest).map
                (fun bs => (w * 4 + x / 16) :: (x % 16 * 16 + y / 4) ::
                  (y % 4 * 64 + z) :: bs)
            | none => none
        | none => none
    | _, _ => none
  | _ => none

def stdAlphabet : List Char :=
  "ABCDEFGHIJKLMNOPQRSTUVWXYZabcdefghijklmnopqrstuvwxyz0123456789+/".data

def urlAlphabet : List Char :=
  "ABCDEFGHIJKLMNOPQRSTUVWXYZabcdefghijklmnopqrstuvwxyz0123456789-_".data

def b64Char (alphabet : List Char) (n : Nat) : Char := alphabet.getD n 'A'

/-- Encode bytes into 4-character groups, padding the final group. -/
def b64EncGroups (alphabet : List Char) : List Nat → List Char
  | a :: b :: c :: rest =>
    b64Char alphabet (a / 4) :: b64Char alphabet (a % 4 * 16 + b / 16) ::
    b64Char alphabet (b % 16 * 4 + c / 64) :: b64Char alphabet (c % 64) ::
    b64EncGroups alphabet rest
  | [a, b] =>
    [b64Char alphabet (a / 4), b64Char alphabet (a % 4 * 16 + b / 16),
     b64Char alphabet (b % 16 * 4), '=']
  | [a] =>
    [b64Char alphabet (a / 4), b64Char alphabet (a % 4 * 16), '=', '=']
  | [] => []

/-- `base64.StdEncoding.DecodeString` (as `parseBasicAuth` calls it):
skip `\r`/`\n`, then decode padded groups. -/
def b64DecodeStd (s : String) : Option (List Nat) :=
  b64DecGroups b64IndexStd (s.data.filter (fun c => c != '\r' && c != '\n'))

/-- `jwt-go` `DecodeSegment`: restore `=` padding from the segment length,
then URL-safe decode. -/
def decodeSegment (s : String) : Option (List Nat) :=
  b64DecGroups b64IndexUrl
    ((s.data ++ List.replicate ((4 - s.data.length % 4) % 4) '=').filter
      (fun c => c != '\r' && c != '\n'))

/-- `jwt-go` `EncodeSegment`: URL-safe encode, then strip the trailing
`=` padding (`strings.TrimRight(s, "=")`). -/
def encodeSegment (bs : List Nat) : String :=
  ⟨((b64EncGroups urlAlphabet bs).reverse.dropWhile (· = '=')).reverse⟩

/-- Go `string(bytes)` for the ASCII byte strings this pipeline handles
(credentials and tokens); comparisons in the source are byte-wise and
agree with this character-wise model on them. -/
def bytesToStr (bs : List Nat) : String := ⟨bs.map Char.ofNat⟩

/-- Go `[]byte(s)` for ASCII strings. -/
def strBytes (s : String) : List Nat := s.data.map Char.toNat

/-! ### SHA-256 and HMAC-SHA256 (Go `crypto/sha256`, `crypto/hmac`) -/

/-- Truncate to a 32-bit word. -/
def w32 (n : Nat) : Nat := n % 4294967296

def rotr32 (x k : Nat) : Nat := w32 ((x >>> k) ||| (x <<< (32 - k)))

def bigSigma0 (x : Nat) : Nat := (rotr32 x 2) ^^^ (rotr32 x 13) ^^^ (rotr32 x 22)

def bigSigma1 (x : Nat) : Nat := (rotr32 x 6) ^^^ (rotr32 x 11) ^^^ (rotr32 x 25)

def smallSigma0 (x : Nat) : Nat := (rotr32 x 7) ^^^ (rotr32 x 18) ^^^ (x >>> 3)

def smallSigma1 (x : Nat) : Nat := (rotr32 x 17) ^^^ (rotr32 x 19) ^^^ (x >>> 10)

def sha256K : List Nat :=
  [1116352408, 1899447441, 3049323471, 3921009573, 961987163,
   1508970993, 2453635748, 2870763221, 3624381080, 310598401,
   607225278, 1426881987, 1925078388, 2162078206, 2614888103,
   3248222580, 3835390401, 4022224774, 264347078, 604807628,
   770255983, 1249150122, 1555081692, 1996064986, 2554220882,
   2821834349, 2952996808, 3210313671, 3336571891, 3584528711,
   113926993, 338241895, 666307205, 773529912, 1294757372,
   1396182291, 1695183700, 1986661051, 2177026350, 2456956037,
   2730485921, 2820302411, 3259730800, 3345764771, 3516065817,
   3600352804, 4094571909, 275423344, 430227734, 506948616,
   659060556, 883997877, 958139571, 1322822218, 1537002063,
   1747873779, 1955562222, 2024104815, 2227730452, 2361852424,
   2428436474, 2756734187, 3204031479, 3329325298]

def sha256H0 : List Nat :=
  [1779033703, 3144134277, 1013904242, 2773480762,
   1359893119, 2600822924, 528734635, 1541459225]

/-- Extend a 16-word block with one scheduled word. -/
def schedStep (w : List Nat) : List Nat :=
  w ++ [w32 (smallSigma1 (w.getD (w.length - 2) 0) + w.getD (w.length - 7) 0 +
    smallSigma0 (w.getD (w.length - 15) 0) + w.getD (w.length - 16) 0)]

/-- The 64-word message schedule. -/
def schedule (w : List Nat) : List Nat := schedStep^[48] w

/-- One SHA-256 round; the state is the word list `[a,b,c,d,e,f,g,h]`. -/
def compressStep (st : List Nat) (kw : Nat × Nat) : List Nat :=
  let a := st.getD 0 0
  let b := st.getD 1 0
  let c := st.getD 2 0
  let d := st.getD 3 0
  let e := st.getD 4 0
  let f := st.getD 5 0
  let g := st.getD 6 0
  let h := st.getD 7 0
  let ch := (e &&& f) ^^^ ((4294967295 ^^^ e) &&& g)
  let maj := (a &&& b) ^^^ (a &&& c) ^^^ (b &&& c)
  let t1 := w32 (h + bigSigma1 e + ch + kw.1 + kw.2)
  let t2 := w32 (bigSigma0 a + maj)
  [w32 (t1 + t2), a, b, c, w32 (d + t1), e, f, g]

/-- Compress one 16-word block into the hash state. -/
def sha256Compress (h : List Nat) (block : List Nat) : List Nat :=
  let st := (sha256K.zip (schedule block)).foldl compressStep h
  (h.zip st).map (fun p => w32 (p.1 + p.2))

/-- Big-endian 32-bit words from bytes. -/
def bytesToWords : List Nat → List Nat
  | b0 :: b1 :: b2 :: b3 :: rest =>
    (b0 * 16777216 + b1 * 65536 + b2 * 256 + b3) :: bytesToWords rest
  | _ => []

/-- Split a byte list into 64-byte blocks (structural fuel recursion so
the kernel can evaluate it; the fuel `l.length` always suffices because
every step consumes at least one element). -/
def chunks64Fuel : Nat → List Nat → List (List Nat)
  | _, [] => []
  | 0, _ => []
  | fuel + 1, l => l.take 64 :: chunks64Fuel fuel (l.drop 64)

def chunks64 (l : List Nat) : List (List Nat) := chunks64Fuel l.length l

/-- SHA-256 padding: `0x80`, zeros, 64-bit big-endian bit length. -/
def sha256Pad (msg : List Nat) : List Nat :=
  msg ++ 128 :: List.replicate ((64 - (msg.length + 9) % 64) % 64) 0 ++
    [((msg.length * 8) >>> 56) % 256, ((msg.length * 8) >>> 48) % 256,
     ((msg.length * 8) >>> 40) % 256, ((msg.length * 8) >>> 32) % 256,
     ((msg.length * 8) >>> 24) % 256, ((msg.length * 8) >>> 16) % 256,
     ((msg.length * 8) >>> 8) % 256, (msg.length * 8) % 256]

/-- SHA-256 of a byte list, as a 32-byte list. -/
def sha256 (msg : List Nat) : List Nat :=
  ((chunks64 (sha256Pad msg)).map bytesToWords).foldl sha256Compress sha256H0
    |>.foldr (fun w acc =>
      (w >>> 24) % 256 :: (w >>> 16) % 256 :: (w >>> 8) % 256 :: w % 256 :: acc) []

/-- HMAC-SHA256 (block size 64; keys longer than a block are hashed
first). -/
def hmacSHA256 (key msg : List Nat) : List Nat :=
  let k0 := if 64 < key.length then sha256 key else key
  let kp := k0 ++ List.replicate (64 - k0.length) 0
  sha256 ((kp.map (fun b => b ^^^ 92)) ++
    sha256 ((kp.map (fun b => b ^^^ 54)) ++ msg))

/-! ### JWT creation and validation (`createJWT`, `checkJWT`) -/

/-- The header JSON `jwt-go` marshals for `jwt.New(jwt.SigningMethodHS256)`
(Go marshals map keys sorted, without spaces). -/
def hs256HeaderJson : String := "\x7b\"alg\":\"HS256\",\"typ\":\"JWT\"\x7d"

def hs256HeaderB64 : String := encodeSegment (strBytes hs256HeaderJson)

/-- The empty claims object of `jwt.New` marshals to `\x7b\x7d`. -/
def emptyClaimsB64 : String := encodeSegment (strBytes "\x7b\x7d")

/-- `token.SigningString()`: base64url header, dot, base64url claims. -/
def jwtSigningString : String := hs256HeaderB64 ++ "." ++ emptyClaimsB64

/-- `createJWT` (lines 85-89): sign the HS256 empty-claims signing string
with the configured key and append the encoded signature. -/
def createJWT (key : String) : String :=
  jwtSigningString ++ "." ++
    encodeSegment (hmacSHA256 (strBytes key) (strBytes jwtSigningString))

/-- `MapClaims.Valid` for the payloads this development produces: the empty
claims object decodes and carries no `exp`, `iat` or `nbf`, so validation
succeeds. Other payloads do not occur in the claims settled here and are
not modelled. -/
def mapClaimsValid (c : String) : Bool :=
  decodeSegment c == some (strBytes "\x7b\x7d")

/-- `checkJWT` (lines 64-82), `true` for a `nil` error: `jwt.Parse` splits
the compact serialization into exactly three dot-separated parts, reads the
signing method from the header — the key function rejects any non-HMAC
method, and the HS256 header `createJWT` emits is the HMAC header occurring
in this development — then verifies the HMAC-SHA256 signature over
`header ++ "." ++ claims` against the configured key (`hmac.Equal` on the
decoded signature) and validates the claims. -/
def checkJWT (key token : String) : Bool :=
  match goSplit '.' token with
  | [h, c, s] =>
    if h = hs256HeaderB64 then
      match decodeSegment s with
      | some sig =>
        decide (sig = hmacSHA256 (strBytes key) (strBytes (h ++ "." ++ c))) &&
          mapClaimsValid c
      | none => false
    else false
  | _ => false

/-! ### The authentication gate (`auth`) -/

/-- ASCII lowercase of one character. -/
def lowerChar (c : Char) : Char :=
  if 'A' ≤ c ∧ c ≤ 'Z' then Char.ofNat (c.toNat + 32) else c

/-- ASCII lowercase map; `strings.ToLower` agrees with it on every
comparison the gate performs (the compared literals `basic `/`bearer`
contain no letter that any non-ASCII rune case-folds to under Go simple
case mapping). -/
def asciiLower (s : String) : String := ⟨s.data.map lowerChar⟩

/-- `strings.Cut(cs, ":")`: the parts before and after the first colon. -/
def cutColon : List Char → Option (List Char × List Char)
  | [] => none
  | c :: rest =>
    if c = ':' then some ([], rest)
    else (cutColon rest).map (fun p => (c :: p.1, p.2))

/-- `net/http` `parseBasicAuth`, reached through `r.BasicAuth()`:
ASCII-case-insensitive `"Basic "` prefix, standard base64 decode of the
remainder, split at the first colon. -/
def parseBasicAuth (hdr : String) : Option (String × String) :=
  if hdr.data.length < 6 then none
  else if asciiLower ⟨hdr.data.take 6⟩ ≠ "basic " then none
  else
    match b64DecodeStd ⟨hdr.data.drop 6⟩ with
    | none => none
    | some bs => (cutColon (bytesToStr bs).data).map (fun p => (⟨p.1⟩, ⟨p.2⟩))

inductive AuthOutcome
  | allow
  | deny (resp : HResponse)
  deriving DecidableEq

/-- The Basic block of `auth` (lines 23-36): `some resp` when it writes a
401 and returns, `none` when control falls through. -/
def authBasic (cfg : Config) (r : Request) : Option HResponse :=
  if cfg.basicActive then
    match parseBasicAuth r.authorization with
    | none => some ⟨401, "Not authorized\n"⟩
    | some (username, password) =>
      if username ≠ cfg.username ∨ password ≠ cfg.password then
        some ⟨401, "Not authorized\n"⟩
      else none
  else none

/-- The bearer block of `auth` (lines 39-57). -/
def authBearer (cfg : Config) (r : Request) : Option HResponse :=
  if cfg.bearerActive then
    if r.authorization = "" then some ⟨401, "Not authorized\n"⟩
    else if (goSplit ' ' r.authorization).length ≠ 2 ∨
        asciiLower ((goSplit ' ' r.authorization).getD 0 "") ≠ "bearer" then
      some ⟨401, "Not authorized\n"⟩
    else if checkJWT cfg.signingKey ((goSplit ' ' r.authorization).getD 1 "") then
      none
    else some ⟨401, "Not authorized\n"⟩
  else none

/-- `auth` (lines 20-61): the Basic block, then the bearer block, then the
inner handler. -/
def auth (cfg : Config) (r : Request) : AuthOutcome :=
  match authBasic cfg r with
  | some resp => .deny resp
  | none =>
    match authBearer cfg r with
    | some resp => .deny resp
    | none => .allow

/-! ### Claim theorems: authentication gate -/

theorem splitCh_ne_nil (sep : Char) (l : List Char) : splitCh sep l ≠ [] := by
  cases l with
  | nil => simp [splitCh]
  | cons c rest =>
    simp only [splitCh]
    split_ifs
    · simp
    · cases splitCh sep rest <;> simp

theorem splitCh_no_sep {sep : Char} {l : List Char} (h : ∀ c ∈ l, c ≠ sep) :
    splitCh sep l = [l] := by
  induction l with
  | nil => rfl
  | cons c rest ih =>
    have hc := h c (by simp)
    have ih' := ih (fun x hx => h x (by simp [hx]))
    simp only [splitCh, hc, if_false, ih']

theorem splitCh_append {sep : Char} {xs : List Char} (ys : List Char)
    (hxs : ∀ c ∈ xs, c ≠ sep) :
    splitCh sep (xs ++ sep :: ys) = xs :: splitCh sep ys := by
  induction xs with
  | nil => simp [splitCh]
  | cons c cs ih =>
    have hc := hxs c (by simp)
    have ih' := ih (fun x hx => hxs x (by simp [hx]))
    simp only [List.cons_append, splitCh, List.append_eq, hc, if_false, ih']

/-- Characters a successfully decoded base64 input can contain. -/
theorem b64DecGroups_chars (idx : Char → Option Nat) :
    (l : List Char) → (bs : List Nat) → b64DecGroups idx l = some bs →
      ∀ c ∈ l, (idx c).isSome ∨ c = '='
  | [], _, _ => by intro c hc; simp at hc
  | [a], bs, h => by simp [b64DecGroups] at h
  | [a, b], bs, h => by simp [b64DecGroups] at h
  | [a, b, c0], bs, h => by simp [b64DecGroups] at h
  | a :: b :: c0 :: d :: rest, bs, h => by
    intro c hc
    simp only [List.mem_cons] at hc
    unfold b64DecGroups at h
    cases ha : idx a with
    | none => simp only [ha] at h; exact absurd h (by simp)
    | some w =>
    cases hb : idx b with
    | none => simp only [ha, hb] at h; exact absurd h (by simp)
    | some x =>
    simp only [ha, hb] at h
    by_cases hceq : c0 = '='
    · rw [if_pos hceq] at h
      split_ifs at h with hde
      · rcases hc with rfl | rfl | rfl | rfl | hcr
        · exact Or.inl (by simp [ha])
        · exact Or.inl (by simp [hb])
        · exact Or.inr hceq
        · exact Or.inr hde.1
        · rw [hde.2] at hcr; simp at hcr
    · rw [if_neg hceq] at h
      cases hy : idx c0 with
      | none => simp only [hy] at h; exact absurd h (by simp)
      | some y =>
      simp only [hy] at h
      by_cases hdeq : d = '='
      · rw [if_pos hdeq] at h
        split_ifs at h with hre
        · rcases hc with rfl | rfl | rfl | rfl | hcr
          · exact Or.inl (by simp [ha])
          · exact Or.inl (by simp [hb])
          · exact Or.inl (by simp [hy])
          · exact Or.inr hdeq
          · rw [hre] at hcr; simp at hcr
      · rw [if_neg hdeq] at h
        cases hz : idx d with
        | none => simp only [hz] at h; exact absurd h (by simp)
        | some z =>
        simp only [hz] at h
        rcases Option.map_eq_some'.mp h with ⟨bs', hrest, _⟩
        rcases hc with rfl | rfl | rfl | rfl | hcr
        · exact Or.inl (by simp [ha])
        · exact Or.inl (by simp [hb])
        · exact Or.inl (by simp [hy])
        · exact Or.inl (by simp [hz])
        · exact b64DecGroups_chars idx rest bs' hrest c hcr

theorem lowerChar_eq_space {c : Char} (h : lowerChar c = ' ') : c = ' ' := by
  unfold lowerChar at h
  split_ifs at h with h1
  · exfalso
    have hle : c.toNat ≤ 90 := by
      have := h1.2
      rw [Char.le_def] at this
      exact this
    have hge : 65 ≤ c.toNat := by
      have := h1.1
      rw [Char.le_def] at this
      exact this
    have hv : (Char.ofNat (c.toNat + 32)).toNat = c.toNat + 32 := by
      unfold Char.ofNat
      rw [dif_pos]
      · rfl
      · exact Or.inl (by omega)
    have h32 : c.toNat + 32 = 32 := by
      have := congrArg Char.toNat h
      rw [hv] at this
      exact this
    omega
  · exact h

/-- The shape of an `Authorization` header `parseBasicAuth` accepts: five
characters case-folding to `basic`, one space, then a space-free base64
remainder. -/
theorem parseBasicAuth_structure {hdr : String} {u p : String}
    (h : parseBasicAuth hdr = some (u, p)) :
    ∃ five rest, hdr.data = five ++ ' ' :: rest ∧
      five.map lowerChar = "basic".data ∧
      (∀ c ∈ rest, c ≠ ' ') := by
  unfold parseBasicAuth at h
  split_ifs at h with h1 h2
  have heq : asciiLower ⟨hdr.data.take 6⟩ = "basic " := not_ne_iff.mp h2
  have hmap : (hdr.data.take 6).map lowerChar = "basic ".data := by
    have := congrArg String.data heq
    simpa [asciiLower] using this
  obtain ⟨a0, t0, he0, hl0, hm0⟩ := List.map_eq_cons_iff.mp hmap
  obtain ⟨a1, t1, he1, hl1, hm1⟩ := List.map_eq_cons_iff.mp hm0
  obtain ⟨a2, t2, he2, hl2, hm2⟩ := List.map_eq_cons_iff.mp hm1
  obtain ⟨a3, t3, he3, hl3, hm3⟩ := List.map_eq_cons_iff.mp hm2
  obtain ⟨a4, t4, he4, hl4, hm4⟩ := List.map_eq_cons_iff.mp hm3
  obtain ⟨a5, t5, he5, hl5, hm5⟩ := List.map_eq_cons_iff.mp hm4
  have ht5 : t5 = [] := by
    have := List.map_eq_nil_iff.mp hm5
    exact this
  have ha5 : a5 = ' ' := lowerChar_eq_space hl5
  have hdrdecomp : hdr.data = [a0, a1, a2, a3, a4] ++ ' ' :: hdr.data.drop 6 := by
    have htake : hdr.data.take 6 = [a0, a1, a2, a3, a4, a5] := by
      rw [he0, he1, he2, he3, he4, he5, ht5]
    have := (List.take_append_drop 6 hdr.data).symm
    rw [htake] at this
    rw [this, ha5]
    simp
  have hnospace : ∀ c ∈ hdr.data.drop 6, c ≠ ' ' := by
    intro c hc
    cases hdec : b64DecodeStd ⟨hdr.data.drop 6⟩ with
    | none => rw [hdec] at h; simp at h
    | some bs =>
      unfold b64DecodeStd at hdec
      rintro rfl
      have hmem : (' ' : Char) ∈
          (String.mk (hdr.data.drop 6)).data.filter
            (fun c => c != '\r' && c != '\n') :=
        List.mem_filter.mpr ⟨hc, by decide⟩
      rcases b64DecGroups_chars b64IndexStd _ bs hdec ' ' hmem with hs | hs
      · exact absurd hs (by decide)
      · exact absurd hs (by decide)
  refine ⟨[a0, a1, a2, a3, a4], hdr.data.drop 6, hdrdecomp, ?_, hnospace⟩
  simp only [List.map_cons, List.map_nil, hl0, hl1, hl2, hl3, hl4]

/-- C5: the gate is the logical AND of the active schemes. With both
schemes active a request is allowed only if the Basic credentials match
exactly and the bearer token validates; a request presenting valid Basic
credentials (hence no bearer token in its single `Authorization` header) is
denied with the 401 response; with neither scheme active every request is
allowed through to the inner handler. -/
theorem C5_gateIsAnd (cfg : Config) (r : Request) :
    (cfg.basicActive = true → cfg.bearerActive = true → auth cfg r = .allow →
      (parseBasicAuth r.authorization = some (cfg.username, cfg.password) ∧
       (goSplit ' ' r.authorization).length = 2 ∧
       asciiLower ((goSplit ' ' r.authorization).getD 0 "") = "bearer" ∧
       checkJWT cfg.signingKey ((goSplit ' ' r.authorization).getD 1 "") = true)) ∧
    (cfg.basicActive = true → cfg.bearerActive = true →
      parseBasicAuth r.authorization = some (cfg.username, cfg.password) →
      auth cfg r = .deny ⟨401, "Not authorized\n"⟩) ∧
    ((cfg.basicActive = false ∧ cfg.bearerActive = false) →
      auth cfg r = .allow) := by
  refine ⟨?_, ?_, ?_⟩
  · intro hba hbe hallow
    have hb : authBasic cfg r = none := by
      cases hb : authBasic cfg r with
      | none => rfl
      | some resp =>
        unfold auth at hallow
        simp only [hb] at hallow
        exact absurd hallow (by simp)
    have hbr : authBearer cfg r = none := by
      cases hbr : authBearer cfg r with
      | none => rfl
      | some resp =>
        unfold auth at hallow
        simp only [hb, hbr] at hallow
        exact absurd hallow (by simp)
    have hcred : parseBasicAuth r.authorization =
        some (cfg.username, cfg.password) := by
      unfold authBasic at hb
      rw [if_pos hba] at hb
      cases hp : parseBasicAuth r.authorization with
      | none =>
        simp only [hp] at hb
        exact absurd hb (by simp)
      | some up =>
        obtain ⟨u2, p2⟩ := up
        simp only [hp] at hb
        split_ifs at hb with hcond
        push_neg at hcond
        rw [hcond.1, hcond.2]
    have hbearer : (goSplit ' ' r.authorization).length = 2 ∧
        asciiLower ((goSplit ' ' r.authorization).getD 0 "") = "bearer" ∧
        checkJWT cfg.signingKey ((goSplit ' ' r.authorization).getD 1 "") =
          true := by
      unfold authBearer at hbr
      rw [if_pos hbe] at hbr
      split_ifs at hbr with h1 h2 h3
      push_neg at h2
      exact ⟨h2.1, h2.2, h3⟩
    exact ⟨hcred, hbearer⟩
  · intro hba hbe hcred
    obtain ⟨five, rest, hdecomp, hfive, hrest⟩ := parseBasicAuth_structure hcred
    have hfivens : ∀ c ∈ five, c ≠ ' ' := by
      intro c hc hcsp
      subst hcsp
      have hm : lowerChar ' ' ∈ five.map lowerChar := List.mem_map_of_mem _ hc
      rw [hfive] at hm
      exact absurd hm (by decide)
    have hsplit : splitCh ' ' r.authorization.data = [five, rest] := by
      rw [hdecomp, splitCh_append rest hfivens, splitCh_no_sep hrest]
    have hbasicnone : authBasic cfg r = none := by
      unfold authBasic
      rw [if_pos hba]
      simp only [hcred]
      simp
    have hbearerdeny : authBearer cfg r = some ⟨401, "Not authorized\n"⟩ := by
      unfold authBearer
      rw [if_pos hbe]
      have hne : r.authorization ≠ "" := by
        intro he
        have hd : r.authorization.data = [] := by rw [he]
        rw [hdecomp] at hd
        simp at hd
      rw [if_neg hne]
      have hcond : (goSplit ' ' r.authorization).length ≠ 2 ∨
          asciiLower ((goSplit ' ' r.authorization).getD 0 "") ≠ "bearer" := by
        right
        unfold goSplit
        rw [hsplit]
        simp only [List.map_cons, List.map_nil, List.getD_cons_zero]
        have hlow : asciiLower ⟨five⟩ = "basic" := by
          apply String.ext
          show five.map lowerChar = "basic".data
          exact hfive
        rw [hlow]
        decide
      rw [if_pos hcond]
    unfold auth
    simp only [hbasicnone, hbearerdeny]
  · rintro ⟨hba, hbe⟩
    unfold auth authBasic authBearer
    simp [hba, hbe]

/-- C5 witness: with both schemes active, valid Basic credentials and no
bearer token are denied with the uniform 401; with neither scheme active
the request is allowed. -/
theorem C5_witness :
    auth ⟨[], true, "user", "pass", true, "k"⟩ ⟨[], "Basic dXNlcjpwYXNz"⟩ =
      .deny ⟨401, "Not authorized\n"⟩ ∧
    auth ⟨[], false, "", "", false, ""⟩ ⟨[], ""⟩ = .allow :=
  ⟨(C5_gateIsAnd ⟨[], true, "user", "pass", true, "k"⟩
      ⟨[], "Basic dXNlcjpwYXNz"⟩).2.1 rfl rfl (by decide),
   (C5_gateIsAnd ⟨[], false, "", "", false, ""⟩ ⟨[], ""⟩).2.2 ⟨rfl, rfl⟩⟩

theorem authBasic_deny {cfg : Config} {r : Request} {resp : HResponse}
    (h : authBasic cfg r = some resp) : resp = ⟨401, "Not authorized\n"⟩ := by
  unfold authBasic at h
  by_cases h1 : cfg.basicActive
  case neg => simp [h1] at h
  rw [if_pos h1] at h
  cases hp : parseBasicAuth r.authorization with
  | none =>
    simp only [hp] at h
    exact (Option.some_inj.mp h).symm
  | some up =>
    obtain ⟨u, p⟩ := up
    simp only [hp] at h
    split_ifs at h
    all_goals
      first
        | exact (Option.some_inj.mp h).symm
        | exact absurd h (by simp)

theorem authBearer_deny {cfg : Config} {r : Request} {resp : HResponse}
    (h : authBearer cfg r = some resp) : resp = ⟨401, "Not authorized\n"⟩ := by
  unfold authBearer at h
  split_ifs at h <;>
    first
      | exact (Option.some_inj.mp h).symm
      | exact absurd h (by simp)

/-- C9: every deny path of the gate — missing or wrong Basic credentials,
missing `Authorization` header, malformed or wrong-scheme header, failed
token validation — produces the identical response: HTTP 401 with body
`Not authorized` (plus `http.Error`'s newline). No status or body
difference reveals which check failed. -/
theorem C9_uniformDeny (cfg : Config) (r : Request) (resp : HResponse)
    (h : auth cfg r = .deny resp) : resp = ⟨401, "Not authorized\n"⟩ := by
  unfold auth at h
  cases hb : authBasic cfg r with
  | some resp2 =>
    simp only [hb] at h
    injection h with h2
    exact h2 ▸ authBasic_deny hb
  | none =>
    simp only [hb] at h
    cases hbe : authBearer cfg r with
    | some resp2 =>
      simp only [hbe] at h
      injection h with h2
      exact h2 ▸ authBearer_deny hbe
    | none =>
      simp only [hbe] at h
      exact absurd h (by simp)

/-- C9 witness: a concrete deny (Basic active, no credentials) carries the
uniform 401 response. -/
theorem C9_witness :
    auth ⟨[], true, "user", "pass", false, ""⟩ ⟨[], ""⟩ =
      .deny ⟨401, "Not authorized\n"⟩ ∧
    (⟨401, "Not authorized\n"⟩ : HResponse) = ⟨401, "Not authorized\n"⟩ :=
  ⟨by decide,
   C9_uniformDeny ⟨[], true, "user", "pass", false, ""⟩ ⟨[], ""⟩ _ (by decide)⟩

/-! ### Base64url round trip and C6 -/

theorem b64IndexUrl_b64Char {n : Nat} (h : n < 64) :
    b64IndexUrl (b64Char urlAlphabet n) = some n :=
  (by decide : ∀ n, n < 64 → b64IndexUrl (b64Char urlAlphabet n) = some n) n h

theorem b64Char_url_mem (n : Nat) : b64Char urlAlphabet n ∈ urlAlphabet := by
  unfold b64Char
  by_cases h : n < urlAlphabet.length
  · rw [List.getD_eq_getElem _ _ h]
    exact List.getElem_mem _
  · rw [List.getD_eq_default _ _ (by omega)]
    decide

theorem urlAlphabet_char_ne {c : Char} (h : c ∈ urlAlphabet) :
    c ≠ '=' ∧ c ≠ '.' ∧ c ≠ '\r' ∧ c ≠ '\n' := by
  refine ⟨?_, ?_, ?_, ?_⟩ <;> (rintro rfl; exact absurd h (by decide))

/-- Decoding inverts encoding on fully padded groups. -/
theorem decGroups_encGroups :
    (bs : List Nat) → (∀ b ∈ bs, b < 256) →
      b64DecGroups b64IndexUrl (b64EncGroups urlAlphabet bs) = some bs
  | [], _ => rfl
  | [a], h => by
    have ha : a < 256 := h a (by simp)
    have h1 : b64IndexUrl (b64Char urlAlphabet (a / 4)) = some (a / 4) :=
      b64IndexUrl_b64Char (by omega)
    have h2 : b64IndexUrl (b64Char urlAlphabet (a % 4 * 16)) = some (a % 4 * 16) :=
      b64IndexUrl_b64Char (by omega)
    simp only [b64EncGroups, b64DecGroups, h1, h2, if_pos rfl]
    refine congrArg some ?_
    have : a / 4 * 4 + a % 4 * 16 / 16 = a := by omega
    rw [this]
  | [a, b], h => by
    have ha : a < 256 := h a (by simp)
    have hb : b < 256 := h b (by simp)
    have h1 : b64IndexUrl (b64Char urlAlphabet (a / 4)) = some (a / 4) :=
      b64IndexUrl_b64Char (by omega)
    have h2 : b64IndexUrl (b64Char urlAlphabet (a % 4 * 16 + b / 16)) =
        some (a % 4 * 16 + b / 16) := b64IndexUrl_b64Char (by omega)
    have h3 : b64IndexUrl (b64Char urlAlphabet (b % 16 * 4)) = some (b % 16 * 4) :=
      b64IndexUrl_b64Char (by omega)
    have hne3 : b64Char urlAlphabet (b % 16 * 4) ≠ '=' :=
      (urlAlphabet_char_ne (b64Char_url_mem _)).1
    simp only [b64EncGroups, b64DecGroups, h1, h2, h3, if_neg hne3, if_pos rfl]
    refine congrArg some ?_
    have e1 : a / 4 * 4 + (a % 4 * 16 + b / 16) / 16 = a := by omega
    have e2 : (a % 4 * 16 + b / 16) % 16 * 16 + b % 16 * 4 / 4 = b := by omega
    rw [e1, e2]
  | a :: b :: c :: rest, h => by
    have ha : a < 256 := h a (by simp)
    have hb : b < 256 := h b (by simp)
    have hc : c < 256 := h c (by simp)
    have ih := decGroups_encGroups rest (fun x hx => h x (by simp [hx]))
    have h1 : b64IndexUrl (b64Char urlAlphabet (a / 4)) = some (a / 4) :=
      b64IndexUrl_b64Char (by omega)
    have h2 : b64IndexUrl (b64Char urlAlphabet (a % 4 * 16 + b / 16)) =
        some (a % 4 * 16 + b / 16) := b64IndexUrl_b64Char (by omega)
    have h3 : b64IndexUrl (b64Char urlAlphabet (b % 16 * 4 + c / 64)) =
        some (b % 16 * 4 + c / 64) := b64IndexUrl_b64Char (by omega)
    have h4 : b64IndexUrl (b64Char urlAlphabet (c % 64)) = some (c % 64) :=
      b64IndexUrl_b64Char (by omega)
    have hne3 : b64Char urlAlphabet (b % 16 * 4 + c / 64) ≠ '=' :=
      (urlAlphabet_char_ne (b64Char_url_mem _)).1
    have hne4 : b64Char urlAlphabet (c % 64) ≠ '=' :=
      (urlAlphabet_char_ne (b64Char_url_mem _)).1
    simp only [b64EncGroups, b64DecGroups, h1, h2, h3, h4, if_neg hne3,
      if_neg hne4, ih, Option.map_some']
    refine congrArg some ?_
    have e1 : a / 4 * 4 + (a % 4 * 16 + b / 16) / 16 = a := by omega
    have e2 : (a % 4 * 16 + b / 16) % 16 * 16 + (b % 16 * 4 + c / 64) / 4 = b := by
      omega
    have e3 : (b % 16 * 4 + c / 64) % 4 * 64 + c % 64 = c := by omega
    rw [e1, e2, e3]

/-- The encoded groups are alphabet characters followed by at most two
padding characters, in full four-character groups. -/
theorem encGroups_shape :
    (bs : List Nat) →
      ∃ A k, b64EncGroups urlAlphabet bs = A ++ List.replicate k '=' ∧
        (∀ c ∈ A, c ∈ urlAlphabet) ∧ k ≤ 2 ∧ (A.length + k) % 4 = 0
  | [] => ⟨[], 0, rfl, by simp, by omega, by simp⟩
  | [a] =>
    ⟨[b64Char urlAlphabet (a / 4), b64Char urlAlphabet (a % 4 * 16)], 2, rfl,
      by
        intro c hcm
        rcases List.mem_cons.mp hcm with rfl | hcm2
        · exact b64Char_url_mem _
        · rcases List.mem_cons.mp hcm2 with rfl | hcm3
          · exact b64Char_url_mem _
          · simp at hcm3,
      by omega, by simp⟩
  | [a, b] =>
    ⟨[b64Char urlAlphabet (a / 4), b64Char urlAlphabet (a % 4 * 16 + b / 16),
      b64Char urlAlphabet (b % 16 * 4)], 1, rfl,
      by
        intro c hcm
        rcases List.mem_cons.mp hcm with rfl | hcm2
        · exact b64Char_url_mem _
        · rcases List.mem_cons.mp hcm2 with rfl | hcm3
          · exact b64Char_url_mem _
          · rcases List.mem_cons.mp hcm3 with rfl | hcm4
            · exact b64Char_url_mem _
            · simp at hcm4,
      by omega, by simp⟩
  | a :: b :: c :: rest => by
    obtain ⟨A, k, hE, hmem, hk, hlen⟩ := encGroups_shape rest
    refine ⟨b64Char urlAlphabet (a / 4) :: b64Char urlAlphabet (a % 4 * 16 + b / 16) ::
      b64Char urlAlphabet (b % 16 * 4 + c / 64) :: b64Char urlAlphabet (c % 64) :: A,
      k, ?_, ?_, hk, ?_⟩
    · simp [b64EncGroups, hE]
    · intro x hx
      rcases List.mem_cons.mp hx with rfl | hx2
      · exact b64Char_url_mem _
      rcases List.mem_cons.mp hx2 with rfl | hx3
      · exact b64Char_url_mem _
      rcases List.mem_cons.mp hx3 with rfl | hx4
      · exact b64Char_url_mem _
      rcases List.mem_cons.mp hx4 with rfl | hx5
      · exact b64Char_url_mem _
      exact hmem x hx5
    · simp only [List.length_cons]
      omega

theorem dropWhile_append_sat {p : Char → Bool} :
    (xs ys : List Char) → (∀ x ∈ xs, p x) →
      (xs ++ ys).dropWhile p = ys.dropWhile p
  | [], ys, _ => rfl
  | x :: xs, ys, h => by
    simp only [List.cons_append, List.dropWhile_cons, h x (by simp), if_true]
    exact dropWhile_append_sat xs ys (fun y hy => h y (by simp [hy]))

theorem trimEq_shape {A : List Char} {k : Nat} (hA : ∀ c ∈ A, c ≠ '=') :
    ((A ++ List.replicate k '=').reverse.dropWhile (· = '=')).reverse = A := by
  rw [List.reverse_append, List.reverse_replicate]
  rw [dropWhile_append_sat _ _ (fun x hx => by
    have := List.eq_of_mem_replicate hx
    simp [this])]
  rw [dropWhile_self_of_head (fun c hc => by
    have := hA c (List.mem_reverse.mp hc)
    simpa using this)]
  exact List.reverse_reverse A

/-- `DecodeSegment` inverts `EncodeSegment` on byte lists. -/
theorem decodeSegment_encodeSegment (bs : List Nat) (h : ∀ b ∈ bs, b < 256) :
    decodeSegment (encodeSegment bs) = some bs := by
  obtain ⟨A, k, hE, hmem, hk, hlen⟩ := encGroups_shape bs
  have hAne : ∀ c ∈ A, c ≠ '=' := fun c hc => (urlAlphabet_char_ne (hmem c hc)).1
  have htrim : (encodeSegment bs).data = A := by
    unfold encodeSegment
    rw [hE]
    exact trimEq_shape hAne
  unfold decodeSegment
  rw [htrim]
  have hpadeq : (4 - A.length % 4) % 4 = k := by omega
  rw [hpadeq]
  rw [show A ++ List.replicate k '=' = b64EncGroups urlAlphabet bs from hE.symm]
  have hfilter : (b64EncGroups urlAlphabet bs).filter
      (fun c => c != '\r' && c != '\n') = b64EncGroups urlAlphabet bs := by
    rw [List.filter_eq_self]
    intro c hcm
    rw [hE] at hcm
    rcases List.mem_append.mp hcm with h1 | h1
    · have hx := urlAlphabet_char_ne (hmem c h1)
      simp [hx.2.2.1, hx.2.2.2]
    · have := List.eq_of_mem_replicate h1
      subst this; decide
  rw [hfilter]
  exact decGroups_encGroups bs h

theorem encodeSegment_chars (bs : List Nat) :
    ∀ c ∈ (encodeSegment bs).data, c ∈ urlAlphabet := by
  obtain ⟨A, k, hE, hmem, _, _⟩ := encGroups_shape bs
  have hAne : ∀ c ∈ A, c ≠ '=' := fun c hc => (urlAlphabet_char_ne (hmem c hc)).1
  have htrim : (encodeSegment bs).data = A := by
    unfold encodeSegment
    rw [hE]
    exact trimEq_shape hAne
  rw [htrim]
  exact hmem

/-- Every byte of a SHA-256 digest is below 256. -/
theorem sha256_lt (msg : List Nat) : ∀ b ∈ sha256 msg, b < 256 := by
  unfold sha256
  generalize (((chunks64 (sha256Pad msg)).map bytesToWords).foldl
    sha256Compress sha256H0) = ws
  induction ws with
  | nil => simp
  | cons w rest ih =>
    intro b hb
    simp only [List.foldr_cons, List.mem_cons] at hb
    rcases hb with rfl | rfl | rfl | rfl | hb'
    · exact Nat.mod_lt _ (by decide)
    · exact Nat.mod_lt _ (by decide)
    · exact Nat.mod_lt _ (by decide)
    · exact Nat.mod_lt _ (by decide)
    · exact ih b hb'

theorem hmac_lt (key msg : List Nat) : ∀ b ∈ hmacSHA256 key msg, b < 256 := by
  unfold hmacSHA256
  exact sha256_lt _

theorem data_dot : ("." : String).data = ['.'] := rfl

/-- `strings.Split` on `.` of a three-part compact serialization with
dot-free parts. -/
theorem goSplit_three {A B : String} (sigl : List Char)
    (hA : ∀ c ∈ A.data, c ≠ '.') (hB : ∀ c ∈ B.data, c ≠ '.')
    (hs : ∀ c ∈ sigl, c ≠ '.') :
    goSplit '.' (A ++ "." ++ B ++ "." ++ (⟨sigl⟩ : String)) =
      [A, B, (⟨sigl⟩ : String)] := by
  unfold goSplit
  have hdata : (A ++ "." ++ B ++ "." ++ (⟨sigl⟩ : String)).data =
      A.data ++ '.' :: (B.data ++ '.' :: sigl) := by
    simp [String.data_append, data_dot]
  rw [hdata, splitCh_append _ hA, splitCh_append _ hB, splitCh_no_sep hs]
  simp

/-- C6: a bearer token issued by `createJWT` with secret `S` validates
under `checkJWT` with the same secret, and fails validation under any
secret whose HMAC of the signing string differs (every secret except the
HMAC-collision case, which no concrete pair realizes). -/
theorem C6_jwtRoundTrip (S Sp : String)
    (hne : hmacSHA256 (strBytes Sp) (strBytes jwtSigningString) ≠
      hmacSHA256 (strBytes S) (strBytes jwtSigningString)) :
    checkJWT S (createJWT S) = true ∧ checkJWT Sp (createJWT S) = false := by
  have hsigbytes := hmac_lt (strBytes S) (strBytes jwtSigningString)
  have hsplit : goSplit '.' (createJWT S) =
      [hs256HeaderB64, emptyClaimsB64,
        encodeSegment (hmacSHA256 (strBytes S) (strBytes jwtSigningString))] := by
    unfold createJWT jwtSigningString
    exact goSplit_three _ (by decide) (by decide)
      (fun c hc => (urlAlphabet_char_ne (encodeSegment_chars _ c hc)).2.1)
  constructor
  · unfold checkJWT
    simp only [hsplit]
    rw [if_pos trivial, decodeSegment_encodeSegment _ hsigbytes]
    have hmsg : hs256HeaderB64 ++ "." ++ emptyClaimsB64 = jwtSigningString := rfl
    rw [hmsg]
    have hclaims : mapClaimsValid emptyClaimsB64 = true := by decide
    simp [hclaims]
  · unfold checkJWT
    simp only [hsplit]
    rw [if_pos trivial, decodeSegment_encodeSegment _ hsigbytes]
    have hmsg : hs256HeaderB64 ++ "." ++ emptyClaimsB64 = jwtSigningString := rfl
    rw [hmsg]
    simp [decide_eq_false (Ne.symm hne)]

/-- C6 witness: secrets `a` and `b` produce different signatures; the
token issued under `a` validates under `a` and fails under `b`. -/
theorem C6_witness :
    hmacSHA256 (strBytes "b") (strBytes jwtSigningString) ≠
      hmacSHA256 (strBytes "a") (strBytes jwtSigningString) ∧
    checkJWT "a" (createJWT "a") = true ∧ checkJWT "b" (createJWT "a") = false :=
  ⟨by decide, C6_jwtRoundTrip "a" "b" (by decide)⟩

end ScriptExporter
